import Mathlib

/-!
Verification development for the project-generation server
(`assistant-server.js`): the code-block extraction engine, the
URL-canonicalizing deployment adapter, the build-repair routine, the
background job pipeline and the status-reporting handler are embedded
shallowly below, and the specified properties are proved about the
embedding.

Strings are modelled as `List Char` (the character sequence underlying a
JavaScript string); `str` injects Lean string literals.
-/

set_option maxRecDepth 4096

def str (s : String) : List Char := s.data

/-- The backquote character (code point 96), written via `Char.ofNat`. -/
def backquote : Char := Char.ofNat 96

/-- A markdown code fence: three backquotes. -/
def fence : List Char := [backquote, backquote, backquote]

/-- JavaScript `\s` (and `String.prototype.trim`) white-space set:
space, tab, LF, VT, FF, CR, NBSP, and the Unicode space separators,
line/paragraph separators, narrow NBSP, MMSP, ideographic space, BOM. -/
def isJsWs (c : Char) : Bool :=
  let n := c.toNat
  n = 0x20 || (9 ≤ n && n ≤ 13) || n = 0xa0 || n = 0x1680 ||
    (0x2000 ≤ n && n ≤ 0x200a) || n = 0x2028 || n = 0x2029 ||
    n = 0x202f || n = 0x205f || n = 0x3000 || n = 0xfeff

/-- Character class `[a-zA-Z0-9_+\.]` of the language tag in
`codeBlockRegex`. -/
def isLangChar (c : Char) : Bool :=
  c.isAlphanum || c = '_' || c = '+' || c = '.'

/-- Character class `[a-zA-Z0-9_\-\.\/]` of the filename capture in
`codeBlockRegex` and in the first-line filename regex. -/
def isFnameChar (c : Char) : Bool :=
  c.isAlphanum || c = '_' || c = '-' || c = '.' || c = '/'

/-- Model of `String.prototype.trim()`. -/
def jsTrim (cs : List Char) : List Char :=
  ((cs.dropWhile isJsWs).reverse.dropWhile isJsWs).reverse

/-- Model of `String.prototype.toLowerCase()` (ASCII fragment, which covers every
needle the source compares against). -/
def lowerStr (cs : List Char) : List Char := cs.map Char.toLower

/-- Model of `String.prototype.includes(needle)`: `needle` occurs as a contiguous
substring. -/
def containsSub (hay needle : List Char) : Bool :=
  match hay with
  | [] => needle = []
  | _ :: t => hay.take needle.length = needle || containsSub t needle

/-- Model of `String.prototype.endsWith(suffix)`. -/
def endsWithStr (s suf : List Char) : Bool :=
  suf.length ≤ s.length && s.drop (s.length - suf.length) = suf

/-- First success of `f` over a list of candidates, in order.  Backbone of
the backtracking search of the embedded regexes. -/
def firstSome (f : α → Option β) : List α → Option β
  | [] => none
  | a :: l =>
    match f a with
    | some b => some b
    | none => firstSome f l

/-- Match a literal at the head of the input and continue. -/
def tryLit (lit cs : List Char) (k : List Char → Option α) : Option α :=
  if cs.take lit.length = lit then k (cs.drop lit.length) else none

/-- Greedy `X*` over a character class: consume the longest run first and
backtrack to shorter runs (down to the empty run). -/
def tryStar (p : Char → Bool) (cs : List Char) (k : List Char → Option α) :
    Option α :=
  let n := (cs.takeWhile p).length
  firstSome (fun i => k (cs.drop i)) ((List.range (n + 1)).map (fun j => n - j))

/-- Greedy capturing `(X+)` over a character class: longest nonempty run
first, backtracking down to a single character. -/
def tryPlus (p : Char → Bool) (cs : List Char)
    (k : List Char → List Char → Option α) : Option α :=
  let n := (cs.takeWhile p).length
  firstSome (fun i => k (cs.take i) (cs.drop i))
    ((List.range n).map (fun j => n - j))

/-- One extracted fenced code block: the optional language tag, the
optional fence-adjacent `filename:` directive capture, and the raw (not
yet trimmed) block content. -/
structure CodeBlock where
  lang : Option (List Char)
  fnameDirective : Option (List Char)
  content : List Char
  deriving DecidableEq

/-- The optional language-tag group `([a-zA-Z0-9_+\.]+)?`: presence
(greedy) is tried before absence. -/
def tryOptLang (cs : List Char)
    (k : Option (List Char) → List Char → Option α) : Option α :=
  match tryPlus isLangChar cs (fun cap rest => k (some cap) rest) with
  | some a => some a
  | none => k none cs

/-- Tail of every filename directive after its comment marker: optional
white-space, the literal `filename:`, optional white-space, then the
captured path over `[a-zA-Z0-9_\-\.\/]+`. -/
def tryFilenameTail (cs1 : List Char) (k : List Char → List Char → Option α) :
    Option α :=
  tryStar isJsWs cs1 (fun cs2 =>
    tryLit (str "filename:") cs2 (fun cs3 =>
      tryStar isJsWs cs3 (fun cs4 =>
        tryPlus isFnameChar cs4 k)))

/-- The directive `(?:\/\/|#)\s*filename:\s*([a-zA-Z0-9_\-\.\/]+)`:
comment marker (`//` tried before `#`), then the directive tail. -/
def tryDirective (cs : List Char) (k : List Char → List Char → Option α) :
    Option α :=
  match tryLit (str "//") cs (fun cs1 => tryFilenameTail cs1 k) with
  | some a => some a
  | none => tryLit (str "#") cs (fun cs1 => tryFilenameTail cs1 k)

/-- The optional directive group: presence is tried before absence. -/
def tryOptDirective (cs : List Char)
    (k : Option (List Char) → List Char → Option α) : Option α :=
  match tryDirective cs (fun cap rest => k (some cap) rest) with
  | some a => some a
  | none => k none cs

/-- Anchored match of
`codeBlockRegex = /```([a-zA-Z0-9_+\.]+)?\s*(?:(?:\/\/|#)\s*filename:\s*([a-zA-Z0-9_\-\.\/]+))?\s*([^`]+)```/`
at the head of the input, with the regex engine's backtracking order;
returns the captures and the input remaining after the match. -/
def matchBlockAt (cs : List Char) : Option (CodeBlock × List Char) :=
  tryLit fence cs (fun cs1 =>
    tryOptLang cs1 (fun lang cs2 =>
      tryStar isJsWs cs2 (fun cs3 =>
        tryOptDirective cs3 (fun fname cs4 =>
          tryStar isJsWs cs4 (fun cs5 =>
            tryPlus (fun c => c != backquote) cs5 (fun content cs6 =>
              tryLit fence cs6 (fun rest =>
                some ({ lang := lang, fnameDirective := fname,
                        content := content }, rest))))))))

/-- The `while ((match = codeBlockRegex.exec(text)))` loop: find the
leftmost match at or after the current position, emit it, and resume
after it.  Fuel bounds the loop; each iteration either consumes a whole
match (at least the seven characters of the two fences and a nonempty
content) or advances one position, so `length + 1` fuel always
suffices. -/
def scanBlocksAux : Nat → List Char → List CodeBlock
  | 0, _ => []
  | _ + 1, [] => []
  | fuel + 1, c :: cs =>
    match matchBlockAt (c :: cs) with
    | some (b, rest) => b :: scanBlocksAux fuel rest
    | none => scanBlocksAux fuel cs

/-- All code blocks of the input, in source order. -/
def scanBlocks (cs : List Char) : List CodeBlock :=
  scanBlocksAux (cs.length + 1) cs

/-- The first-line filename fallback
`code.match(/^(?:\/\/|#|\/\*)\s*filename:\s*([a-zA-Z0-9_\-\.\/]+)/)`,
anchored at the start of the (trimmed) block content. -/
def firstLineFilename (cs : List Char) : Option (List Char) :=
  match tryLit (str "//") cs
      (fun cs1 => tryFilenameTail cs1 (fun cap _ => some cap)) with
  | some f => some f
  | none =>
    match tryLit (str "#") cs
        (fun cs1 => tryFilenameTail cs1 (fun cap _ => some cap)) with
    | some f => some f
    | none => tryLit (str "/*") cs
        (fun cs1 => tryFilenameTail cs1 (fun cap _ => some cap))

/-- The `langMap` object literal of `getExtensionFromLanguage`. -/
def langMap : List (List Char × List Char) :=
  [(str "javascript", str ".js"), (str "js", str ".js"),
   (str "typescript", str ".ts"), (str "ts", str ".ts"),
   (str "jsx", str ".jsx"), (str "tsx", str ".tsx"),
   (str "python", str ".py"), (str "py", str ".py"),
   (str "ruby", str ".rb"), (str "java", str ".java"),
   (str "c", str ".c"), (str "cpp", str ".cpp"),
   (str "csharp", str ".cs"), (str "cs", str ".cs"),
   (str "go", str ".go"), (str "html", str ".html"),
   (str "css", str ".css"), (str "json", str ".json"),
   (str "yaml", str ".yml"), (str "shell", str ".sh"),
   (str "bash", str ".sh"), (str "php", str ".php"),
   (str "swift", str ".swift"), (str "rust", str ".rs"),
   (str "kotlin", str ".kt"), (str "sql", str ".sql")]

/-- Property lookup on an object literal used as a map. -/
def lookupStr (k : List Char) : List (List Char × List Char) → Option (List Char)
  | [] => none
  | (a, b) :: t => if a = k then some b else lookupStr k t

/-- Embedding of `getExtensionFromLanguage`: `langMap[language.toLowerCase()] || '.txt'`. -/
def getExtensionFromLanguage (language : List Char) : List Char :=
  (lookupStr (lowerStr language) langMap).getD (str ".txt")

/-- Decimal digits of a JavaScript number (a nonnegative integer here),
as produced by template-literal interpolation.  Fuel-bounded division
recursion; `n + 1` fuel always suffices since `n / 10 < n`. -/
def natDigitsAux : Nat → Nat → List Char
  | 0, _ => []
  | fuel + 1, n =>
    if n < 10 then [Char.ofNat (48 + n)]
    else natDigitsAux fuel (n / 10) ++ [Char.ofNat (48 + n % 10)]

def natDigits (n : Nat) : List Char := natDigitsAux (n + 1) n

/-- Assignment `extractedFiles[filename] = code` on a plain JavaScript
object: an assignment to the key `__proto__` invokes the inherited
`Object.prototype.__proto__` accessor, whose setter ignores a string
value, so no own property is created or changed (a silent no-op);
otherwise the assignment replaces the key's value in place when the key
exists and appends it otherwise. -/
def updateFiles (m : List (List Char × List Char)) (k v : List Char) :
    List (List Char × List Char) :=
  if k = str "__proto__" then m
  else if m.any (fun p => p.1 = k) then
    m.map (fun p => if p.1 = k then (k, v) else p)
  else m ++ [(k, v)]

/-- The body of the extraction loop for one regex match: resolve
`filename` (explicit directive, else first-line directive on the trimmed
content, else `file<N><ext>` where `N` counts entries already present),
and store the trimmed content. -/
def processBlock (m : List (List Char × List Char)) (b : CodeBlock) :
    List (List Char × List Char) :=
  let lang := b.lang.getD (str "txt")
  let code := jsTrim b.content
  let filename :=
    match b.fnameDirective with
    | some f => f
    | none =>
      match firstLineFilename code with
      | some f => f
      | none => str "file" ++ natDigits (m.length + 1) ++ getExtensionFromLanguage lang
  updateFiles m filename code

/-- Inferred project metadata (`projectInfo`). -/
structure ProjectInfo where
  framework : List Char
  language : List Char
  cssFramework : Option (List Char)
  features : List (List Char)
  deriving DecidableEq

/-- Result of `extractCodeFromResponse`. -/
structure GenerationResult where
  files : List (List Char × List Char)
  projectInfo : ProjectInfo
  deriving DecidableEq

/-- Truthy `&&`-guarded substring check on an optional string
(`extractedFiles['package.json'] && extractedFiles['package.json'].includes(...)`):
an absent or empty string is falsy. -/
def optContains (o : Option (List Char)) (needle : List Char) : Bool :=
  match o with
  | some s => !(s = []) && containsSub s needle
  | none => false

/-- Embedding of `extractCodeFromResponse`: scan all fenced code blocks into the file
mapping, then infer `projectInfo` from the full response text and the
captured files. -/
def extractCodeFromResponse (response : List Char) : GenerationResult :=
  let extractedFiles := (scanBlocks response).foldl processBlock []
  let pkg := lookupStr (str "package.json") extractedFiles
  let language :=
    if containsSub (lowerStr response) (str "typescript") ||
        extractedFiles.any (fun p =>
          endsWithStr p.1 (str ".ts") || endsWithStr p.1 (str ".tsx")) then
      str "typescript"
    else str "javascript"
  let cssFramework :=
    if containsSub (lowerStr response) (str "tailwind") ||
        optContains pkg (str "tailwindcss") then
      some (str "tailwind")
    else none
  let framework :=
    if containsSub (lowerStr response) (str "next.js") ||
        optContains pkg (str "next") then
      str "next"
    else str "react"
  { files := extractedFiles,
    projectInfo :=
      { framework := framework, language := language,
        cssFramework := cssFramework, features := [] } }

/-! Deployment adapter (`deployToVercel`). -/

/-- Character class `[a-z0-9]` of the preview-hash suffix regex. -/
def isHashChar (c : Char) : Bool := ('a' ≤ c && c ≤ 'z') || c.isDigit

/-- Leftmost match of `/(https:\/\/[^\s]+)/`: the first position carrying
the literal `https://` followed by at least one non-white-space
character; the greedy `[^\s]+` takes the whole non-white-space run. -/
def firstHttpsToken : List Char → Option (List Char)
  | [] => none
  | c :: cs =>
    let lit := str "https://"
    let tok := (c :: cs).takeWhile (fun d => !isJsWs d)
    if (c :: cs).take lit.length = lit && lit.length < tok.length then some tok
    else firstHttpsToken cs

/-- Attempt of `-[a-z0-9]+\.vercel\.app` just after a `-`: greedy run of
hash characters (backtracking to shorter runs) followed by the literal
`.vercel.app`; returns the input remaining after the whole suffix. -/
def vercelSuffixAt (cs : List Char) : Option (List Char) :=
  let n := (cs.takeWhile isHashChar).length
  firstSome (fun i =>
      if 1 ≤ i && (cs.drop i).take 11 = str ".vercel.app" then
        some (cs.drop (i + 11))
      else none)
    ((List.range n).map (fun j => n - j))

/-- Model of `url.replace` applied to the regex `-[a-z0-9]+\.vercel\.app` with the
literal `.vercel.app`: the leftmost occurrence only is replaced. -/
def replaceVercelSuffix : List Char → List Char
  | [] => []
  | c :: cs =>
    if c = '-' then
      match vercelSuffixAt cs with
      | some rest => str ".vercel.app" ++ rest
      | none => c :: replaceVercelSuffix cs
    else c :: replaceVercelSuffix cs

/-- Strip any preview-deployment hash suffix and ensure a trailing
slash (the clean-up block of `deployToVercel`). -/
def canonicalizeDeployUrl (u : List Char) : List Char :=
  let u1 := replaceVercelSuffix u
  if endsWithStr u1 (str "/") then u1 else u1 ++ str "/"

/-- URL extraction of `deployToVercel`: first URL-shaped token of the
CLI output, trimmed, canonicalized. -/
def parseDeploymentUrl (deployOutput : List Char) : Option (List Char) :=
  (firstHttpsToken deployOutput).map (fun tok => canonicalizeDeployUrl (jsTrim tok))

/-- Resolution of `deployToVercel`: it never rejects; its internal catch
converts any thrown error into a `success:false` result. -/
inductive DeployOutcome
  | success (url output : List Char)
  | failure (msg : List Char)
  deriving DecidableEq

/-- Outcomes of the external commands `deployToVercel` runs, each an
`executeCommand` resolution (`.ok` stdout) or rejection (`.error`
message). -/
structure DeployEnv where
  npmInstall : Except (List Char) (List Char)
  pluginInstall : Except (List Char) (List Char)
  vercelExec : Except (List Char) (List Char)

/-- The deployment CLI invocation string. -/
def vercelDeployCmd (token projectName : List Char) : List Char :=
  str "npx vercel deploy --token=" ++ token ++ str " --name=" ++ projectName ++
    str " --confirm --prod"

/-- Embedding of `deployToVercel` as a trace of `(command, workingDirectory)` pairs
plus its outcome.  The `.vercel`-directory removal and the
`.vercelignore` write are local filesystem operations whose failure the
source either swallows (the `rmSync` catch) or funnels into the same
catch-all as the commands; they run no external command. -/
def deployToVercel (denv : DeployEnv) (token projectDir projectName : List Char) :
    List (List Char × List Char) × DeployOutcome :=
  match denv.npmInstall with
  | .error e => ([(str "npm install", projectDir)], .failure e)
  | .ok _ =>
    match denv.pluginInstall with
    | .error e =>
      ([(str "npm install", projectDir),
        (str "npm install @vitejs/plugin-react --save-dev", projectDir)], .failure e)
    | .ok _ =>
      let cmds := [(str "npm install", projectDir),
        (str "npm install @vitejs/plugin-react --save-dev", projectDir),
        (vercelDeployCmd token projectName, projectDir)]
      match denv.vercelExec with
      | .error e => (cmds, .failure e)
      | .ok out =>
        match parseDeploymentUrl out with
        | some url => (cmds, .success url out)
        | none =>
          (cmds, .failure (str "Could not extract deployment URL from Vercel output"))

/-! Build-validate-repair routine (`testBuildProject`). -/

/-- JavaScript `.` (dot, no `s` flag): anything but a line terminator. -/
def isDotMatch (c : Char) : Bool :=
  !(c = '\n' || c = '\r' || c.toNat = 0x2028 || c.toNat = 0x2029)

/-- The quote class `["']`. -/
def isQuote (c : Char) : Bool := c = '"' || c = '\''

/-- Lazy `(.+?.css)["']` at a fixed position: the shortest capture of
length `l + 4` (a nonempty lazy part, one arbitrary character matched by
the unescaped dot, then the literal `css`) followed by a quote. -/
def findLazyCss (cs : List Char) : Option (List Char) :=
  firstSome (fun l =>
      if (cs.take (l + 1)).length = l + 1 && (cs.take (l + 1)).all isDotMatch &&
          (cs.drop (l + 1)).take 3 = str "css" &&
          (match (cs.drop (l + 4)).head? with
           | some q => isQuote q
           | none => false) then
        some (cs.take (l + 4))
      else none)
    ((List.range cs.length).map (fun j => j + 1))

/-- Model of the match of `error.message` against the regex
`Could not resolve ["'](.+?.css)["']`:
leftmost occurrence, lazy capture. -/
def missingCssFromError : List Char → Option (List Char)
  | [] => none
  | c :: t =>
    let lit := str "Could not resolve "
    let here : Option (List Char) :=
      if (c :: t).take lit.length = lit then
        match (c :: t).drop lit.length with
        | q :: rest => if isQuote q then findLazyCss rest else none
        | [] => none
      else none
    match here with
    | some cap => some cap
    | none => missingCssFromError t

/-- Lazy `(.+?)["']` at a fixed position: shortest nonempty run of
dot-matchable characters followed by a quote. -/
def findLazyAny (cs : List Char) : Option (List Char) :=
  firstSome (fun l =>
      if (cs.take l).length = l && (cs.take l).all isDotMatch &&
          (match (cs.drop l).head? with
           | some q => isQuote q
           | none => false) then
        some (cs.take l)
      else none)
    ((List.range cs.length).map (fun j => j + 1))

/-- Model of the match of `error.message` against `from ["'](.+?)["']`:
leftmost occurrence,
lazy capture. -/
def componentFromError : List Char → Option (List Char)
  | [] => none
  | c :: t =>
    let lit := str "from "
    let here : Option (List Char) :=
      if (c :: t).take lit.length = lit then
        match (c :: t).drop lit.length with
        | q :: rest => if isQuote q then findLazyAny rest else none
        | [] => none
      else none
    match here with
    | some cap => some cap
    | none => componentFromError t

/-- POSIX-style `path.join` on two relative segments. -/
def pathJoin (a b : List Char) : List Char := a ++ str "/" ++ b

/-- Model of `path.basename`: the component after the last `/`. -/
def baseNameOf (p : List Char) : List Char :=
  (p.reverse.takeWhile (fun c => c != '/')).reverse

/-- Model of `path.dirname`: everything before the last `/` (or `.` when there is
no separator). -/
def dirNameOf (p : List Char) : List Char :=
  let b := baseNameOf p
  if b.length = p.length then str "." else p.take (p.length - b.length - 1)

/-- Outcomes of the external build command and the filesystem lookups
`testBuildProject` performs. -/
structure BuildEnv where
  firstBuild : Except (List Char) (List Char)
  fileExists : List Char → Bool
  secondBuild : Except (List Char) (List Char)

/-- Observable effects of one `testBuildProject` call: the external
commands run (with working directory), the files written, and the
returned boolean. -/
structure BuildRun where
  commands : List (List Char × List Char)
  writes : List (List Char × List Char)
  ok : Bool
  deriving DecidableEq

def buildCmd : List Char := str "npm run build"

/-- The component-path completion step of `testBuildProject`: keep the
joined path when it already ends in a source extension, otherwise try
`.jsx`, `.js`, `.tsx`, `.ts` in order and take the first that exists on
disk (keeping the bare path when none does). -/
def resolveComponentPath (fileExists : List Char → Bool) (base : List Char) :
    List Char :=
  if endsWithStr base (str ".js") || endsWithStr base (str ".jsx") ||
      endsWithStr base (str ".ts") || endsWithStr base (str ".tsx") then
    base
  else
    match [str ".jsx", str ".js", str ".tsx", str ".ts"].find?
        (fun e => fileExists (base ++ e)) with
    | some e => base ++ e
    | none => base

/-- The stylesheet path and placeholder content `testBuildProject`
writes beside the located component. -/
def repairWrite (componentFullPath missingFile : List Char) :
    List Char × List Char :=
  (pathJoin (dirNameOf componentFullPath) (baseNameOf missingFile),
   str "/* Auto-generated CSS file for " ++ baseNameOf componentFullPath ++
     str " */\n")

/-- Embedding of `testBuildProject`: run `npm run build`; on a failure whose message
reports an unresolved `.css` import, parse the missing stylesheet and
importing component out of the message, locate the component on disk
(trying `.jsx`, `.js`, `.tsx`, `.ts` when the path has no source
extension), write a placeholder stylesheet beside it and build once
more; otherwise (or when the second build also fails) report failure. -/
def testBuildProject (benv : BuildEnv) (projectDir : List Char) : BuildRun :=
  match benv.firstBuild with
  | .ok _ => { commands := [(buildCmd, projectDir)], writes := [], ok := true }
  | .error msg =>
    let one : BuildRun := { commands := [(buildCmd, projectDir)], writes := [], ok := false }
    if containsSub msg (str "Could not resolve") && containsSub msg (str ".css") then
      match missingCssFromError msg with
      | none => one
      | some missingFile =>
        match componentFromError msg with
        | none => one
        | some componentPath =>
          let componentFullPath := resolveComponentPath benv.fileExists
            (pathJoin (pathJoin projectDir (str "src")) componentPath)
          if benv.fileExists componentFullPath then
            match benv.secondBuild with
            | .ok _ =>
              { commands := [(buildCmd, projectDir), (buildCmd, projectDir)],
                writes := [repairWrite componentFullPath missingFile], ok := true }
            | .error _ =>
              { commands := [(buildCmd, projectDir), (buildCmd, projectDir)],
                writes := [repairWrite componentFullPath missingFile], ok := false }
          else one
    else one

/-! Job orchestrator. -/

/-- Job status values (the string literals assigned to `job.status`). -/
inductive Status
  | pending
  | generating
  | scaffolding
  | deploying
  | completed
  | completedWithoutDeployment
  | deploymentFailed
  | failed
  deriving DecidableEq

/-- The four terminal statuses. -/
def isTerminal : Status → Bool
  | .completed | .completedWithoutDeployment | .deploymentFailed | .failed => true
  | _ => false

/-- Position of a status along the pipeline; all terminal states share
the final rank. -/
def statusRank : Status → Nat
  | .pending => 0
  | .generating => 1
  | .scaffolding => 2
  | .deploying => 3
  | _ => 4

/-- The edges of the state-machine graph of the specification:
`pending → generating → scaffolding → deploying` followed by one of the
three deploy resolutions, plus the exception jump to `failed` from any
non-terminal state. -/
def statusEdge : Status → Status → Bool
  | .pending, .generating => true
  | .generating, .scaffolding => true
  | .scaffolding, .deploying => true
  | .deploying, .completed => true
  | .deploying, .completedWithoutDeployment => true
  | .deploying, .deploymentFailed => true
  | s, .failed => !(isTerminal s)
  | _, _ => false

/-- A status advance along the state-machine graph: a (possibly empty)
path of edges. -/
def statusReach (s t : Status) : Prop :=
  Relation.ReflTransGen (fun a b => statusEdge a b = true) s t

/-- The job record created by `POST /generateProject` and mutated by the
background task. -/
structure Job where
  id : List Char
  prompt : List Char
  outputDir : List Char
  status : Status
  created : Nat
  lastUpdated : Nat
  completed : Bool
  apiProvider : List Char
  error : Option (List Char) := none
  files : Option (List (List Char)) := none
  fileContents : Option (List (List Char × List Char)) := none
  deploymentUrl : Option (List Char) := none
  deploymentOutput : Option (List Char) := none
  deriving DecidableEq

/-- The job literal stored by the `POST /generateProject` handler. -/
def mkJob (uniqueId prompt apiProvider : List Char) (now : Nat) : Job :=
  { id := uniqueId, prompt := prompt,
    outputDir := str "generated_projects/" ++ uniqueId,
    status := .pending, created := now, lastUpdated := now,
    completed := false, apiProvider := apiProvider }

/-- Environment of one background run of `processGenerateAndDeploy`:
the resolution of each awaited step and the filesystem effects, so the
pipeline itself is deterministic in it.  `genOutcome` abstracts the
provider branch (OpenAI / Gemini / Claude / unsupported-provider throw):
each path either throws or yields the extraction result.  `readFile`
abstracts the guarded per-file read of small text files (its internal
try/catch never throws). -/
structure PipelineEnv where
  genOutcome : Except (List Char) (List (List Char × List Char) × ProjectInfo)
  scaffoldOutcome : Except (List Char) Unit
  addFilesOutcome : Except (List Char) Unit
  listOutcome : Except (List Char) Unit
  scaffoldFiles : List (List Char)
  readFile : List Char → Option (List Char)
  vercelToken : Option (List Char)
  deployEnv : DeployEnv

/-- Files under the output directory after the scaffold tool ran and the
extracted files were overlaid (`listFilesRecursively` result; traversal
order abstracted, writing an existing path does not duplicate it). -/
def overlayFiles (scaffolded generated : List (List Char)) : List (List Char) :=
  scaffolded ++ generated.filter (fun f => !(scaffolded.contains f))

/-- The `fileContents` capture loop over the listed project files. -/
def capturedContents (env : PipelineEnv) (projectFiles : List (List Char)) :
    List (List Char × List Char) :=
  projectFiles.filterMap (fun f => (env.readFile f).map (fun c => (f, c)))

/-- The catch block of `processGenerateAndDeploy`. -/
def failJob (j : Job) (msg : List Char) : Job :=
  { j with status := .failed, error := some msg,
           lastUpdated := j.lastUpdated + 1, completed := true }

/-- One background run of `processGenerateAndDeploy`, as the trace of
job states observable at suspension points (between two `await`s the
synchronous mutations are atomic: no status query can run inside such a
block).  In particular, when no deployment credential is configured the
assignments `status = 'deploying'` and `status =
'completed_without_deployment'` happen in one synchronous block, so only
the latter is observable.  `Date.now()` is modelled as a monotone
tick. -/
def runJob (env : PipelineEnv) (job0 : Job) : List Job :=
  let j1 := { job0 with status := .generating, lastUpdated := job0.lastUpdated + 1 }
  match env.genOutcome with
  | .error msg => [job0, j1, failJob j1 msg]
  | .ok (files, _projectInfo) =>
    if files.length = 0 then
      [job0, j1, failJob j1 (str "No code files found in API response")]
    else
      let j2 := { j1 with status := .scaffolding, lastUpdated := j1.lastUpdated + 1 }
      match env.scaffoldOutcome with
      | .error msg => [job0, j1, j2, failJob j2 msg]
      | .ok _ =>
        match env.addFilesOutcome with
        | .error msg => [job0, j1, j2, failJob j2 msg]
        | .ok _ =>
          match env.listOutcome with
          | .error msg => [job0, j1, j2, failJob j2 msg]
          | .ok _ =>
            let projectFiles := overlayFiles env.scaffoldFiles (files.map Prod.fst)
            let contents := capturedContents env projectFiles
            match env.vercelToken with
            | some token =>
              let j3 := { j2 with
                files := some projectFiles
                fileContents := some contents
                status := .deploying
                lastUpdated := j2.lastUpdated + 1 }
              let dr := deployToVercel env.deployEnv token job0.outputDir
                (str "ai-project-" ++ job0.id)
              let j4 :=
                match dr.2 with
                | .success url out =>
                  { j3 with
                    status := .completed
                    deploymentUrl := some url
                    deploymentOutput := some out
                    lastUpdated := j3.lastUpdated + 1
                    completed := true }
                | .failure msg =>
                  { j3 with
                    status := .deploymentFailed
                    error := some msg
                    lastUpdated := j3.lastUpdated + 1
                    completed := true }
              [job0, j1, j2, j3, j4]
            | none =>
              let j4 := { j2 with
                files := some projectFiles
                fileContents := some contents
                status := .completedWithoutDeployment
                error := some (str "Vercel token not configured. Project generated but not deployed.")
                lastUpdated := j2.lastUpdated + 1
                completed := true }
              [job0, j1, j2, j4]

/-! Status reporting (`GET /getDeploymentStatus`). -/

/-- The JSON envelope of a successful status query: the base fields plus
the optional fields added once `job.completed` holds. -/
structure StatusResponse where
  success : Bool
  jobId : List Char
  status : Status
  created : Nat
  lastUpdated : Nat
  outputDir : Option (List Char) := none
  error : Option (List Char) := none
  files : Option (List (List Char)) := none
  deploymentUrl : Option (List Char) := none
  fileContents : Option (List (List Char × List Char)) := none
  deriving DecidableEq

/-- JavaScript truthiness of an optional string field: an absent field
and the empty string are falsy. -/
def optTruthyStr (o : Option (List Char)) : Option (List Char) :=
  match o with
  | some s => if s = [] then none else some s
  | none => none

/-- The `GET /getDeploymentStatus` handler on a known job.  `job.error`
and `job.deploymentUrl` are strings, included only when truthy (every
value the pipeline assigns them is nonempty); `job.files` is an array
and `job.fileContents` an object, both truthy even when empty, so their
inclusion tests only that the field was ever set;
`includeFiles` is `req.query.includeFiles === 'true'`. -/
def getDeploymentStatus (job : Job) (includeFiles : Bool) : StatusResponse :=
  let base : StatusResponse :=
    { success := true, jobId := job.id, status := job.status,
      created := job.created, lastUpdated := job.lastUpdated }
  if job.completed then
    { base with
      outputDir := some job.outputDir,
      error := optTruthyStr job.error,
      files := job.files,
      deploymentUrl := optTruthyStr job.deploymentUrl,
      fileContents := if includeFiles then job.fileContents else none }
  else base

/-- The `file<N><ext>` default filenames synthesized by the extraction
loop. -/
def defaultName (i : Nat) (e : List Char) : List Char :=
  str "file" ++ natDigits i ++ e

/-- Keys of the extraction mapping when every processed block lacked a
filename signal: the key at offset `j` (from a starting count `i`) is
`file<i+j+1><ext>` for some extension starting with a dot. -/
def GoodKeys : Nat → List (List Char) → Prop
  | _, [] => True
  | i, k :: t => (∃ e, e.head? = some '.' ∧ k = defaultName (i + 1) e) ∧ GoodKeys (i + 1) t

/-- Decimal value of a digit string (used to invert `natDigits`). -/
def undigits (l : List Char) : Nat :=
  l.foldl (fun a c => 10 * a + (c.toNat - 48)) 0

/-! Supporting lemmas. -/

theorem firstSome_eq_some {α β : Type} {f : α → Option β} {b : β} :
    ∀ {l : List α}, firstSome f l = some b → ∃ a ∈ l, f a = some b := by
  intro l
  induction l with
  | nil => intro h; simp [firstSome] at h
  | cons a t ih =>
    intro h
    rw [firstSome] at h
    cases hfa : f a with
    | some b' =>
      rw [hfa] at h
      exact ⟨a, by simp, by rw [hfa]; exact h⟩
    | none =>
      rw [hfa] at h
      obtain ⟨x, hx, hfx⟩ := ih h
      exact ⟨x, by simp [hx], hfx⟩

theorem take_all_of_le_takeWhile {α : Type} {p : α → Bool} :
    ∀ {cs : List α} {i : Nat}, i ≤ (cs.takeWhile p).length → (cs.take i).all p = true := by
  intro cs
  induction cs with
  | nil => intro i h; simp_all
  | cons c t ih =>
    intro i h
    cases i with
    | zero => simp
    | succ j =>
      by_cases hp : p c
      · rw [List.takeWhile_cons_of_pos hp] at h
        simp only [List.take_succ_cons, List.all_cons, hp, Bool.true_and]
        exact ih (Nat.le_of_succ_le_succ h)
      · rw [List.takeWhile_cons_of_neg hp] at h
        simp at h
      
theorem take_ne_nil_of_le {α : Type} {cs : List α} {i : Nat}
    (h1 : 1 ≤ i) (h2 : i ≤ cs.length) : cs.take i ≠ [] := by
  cases cs with
  | nil => simp at h2; omega
  | cons c t => cases i with
    | zero => omega
    | succ j => simp

theorem tryLit_inv {α : Type} {lit cs : List Char} {k : List Char → Option α} {a : α}
    (h : tryLit lit cs k = some a) :
    cs.take lit.length = lit ∧ k (cs.drop lit.length) = some a := by
  unfold tryLit at h
  split at h
  · exact ⟨by assumption, h⟩
  · exact absurd h (by simp)

theorem tryStar_inv {α : Type} {p : Char → Bool} {cs : List Char}
    {k : List Char → Option α} {a : α} (h : tryStar p cs k = some a) :
    ∃ i, k (cs.drop i) = some a := by
  unfold tryStar at h
  obtain ⟨i, _, hi⟩ := firstSome_eq_some h
  exact ⟨i, hi⟩

theorem tryPlus_inv {α : Type} {p : Char → Bool} {cs : List Char}
    {k : List Char → List Char → Option α} {a : α} (h : tryPlus p cs k = some a) :
    ∃ i, 1 ≤ i ∧ i ≤ (cs.takeWhile p).length ∧ k (cs.take i) (cs.drop i) = some a := by
  unfold tryPlus at h
  obtain ⟨i, hmem, hi⟩ := firstSome_eq_some h
  obtain ⟨j, hj, rfl⟩ := List.mem_map.mp hmem
  have hj' := List.mem_range.mp hj
  exact ⟨_, by omega, by omega, hi⟩

theorem takeWhile_length_le {α : Type} (p : α → Bool) :
    ∀ (cs : List α), (cs.takeWhile p).length ≤ cs.length := by
  intro cs
  induction cs with
  | nil => simp
  | cons c t ih =>
    by_cases hp : p c
    · rw [List.takeWhile_cons_of_pos hp]; simpa using ih
    · rw [List.takeWhile_cons_of_neg hp]; simp

theorem plusCap_props {p : Char → Bool} {cs : List Char} {i : Nat}
    (h1 : 1 ≤ i) (h2 : i ≤ (cs.takeWhile p).length) :
    cs.take i ≠ [] ∧ ∀ c ∈ cs.take i, p c = true := by
  have hlen : (cs.takeWhile p).length ≤ cs.length := takeWhile_length_le p cs
  refine ⟨take_ne_nil_of_le h1 (le_trans h2 hlen), ?_⟩
  have := take_all_of_le_takeWhile (p := p) h2
  exact fun c hc => (List.all_eq_true.mp this) c hc

theorem tryOptLang_inv {α : Type} {cs : List Char}
    {k : Option (List Char) → List Char → Option α} {a : α}
    (h : tryOptLang cs k = some a) :
    (∃ cap rest, k (some cap) rest = some a) ∨ k none cs = some a := by
  unfold tryOptLang at h
  cases hm : tryPlus isLangChar cs (fun cap rest => k (some cap) rest) with
  | some a' =>
    rw [hm] at h
    obtain ⟨i, _, _, hk⟩ := tryPlus_inv hm
    exact Or.inl ⟨_, _, by rw [hk]; exact h⟩
  | none =>
    rw [hm] at h
    exact Or.inr h

theorem tryFilenameTail_inv {α : Type} {cs1 : List Char}
    {k : List Char → List Char → Option α} {a : α}
    (h : tryFilenameTail cs1 k = some a) :
    ∃ cap rest, cap ≠ [] ∧ (∀ c ∈ cap, isFnameChar c = true) ∧ k cap rest = some a := by
  unfold tryFilenameTail at h
  obtain ⟨i1, h⟩ := tryStar_inv h
  obtain ⟨-, h⟩ := tryLit_inv h
  obtain ⟨i2, h⟩ := tryStar_inv h
  obtain ⟨i3, hi1, hi2, h⟩ := tryPlus_inv h
  obtain ⟨hne, hall⟩ := plusCap_props hi1 hi2
  exact ⟨_, _, hne, hall, h⟩

theorem tryDirective_inv {α : Type} {cs : List Char}
    {k : List Char → List Char → Option α} {a : α}
    (h : tryDirective cs k = some a) :
    ∃ cap rest, cap ≠ [] ∧ (∀ c ∈ cap, isFnameChar c = true) ∧ k cap rest = some a := by
  unfold tryDirective at h
  cases hm : tryLit (str "//") cs (fun cs1 => tryFilenameTail cs1 k) with
  | some a' =>
    rw [hm] at h
    obtain ⟨-, hk⟩ := tryLit_inv hm
    cases h
    exact tryFilenameTail_inv hk
  | none =>
    rw [hm] at h
    obtain ⟨-, hk⟩ := tryLit_inv h
    exact tryFilenameTail_inv hk

theorem tryOptDirective_inv {α : Type} {cs : List Char}
    {k : Option (List Char) → List Char → Option α} {a : α}
    (h : tryOptDirective cs k = some a) :
    (∃ cap rest, cap ≠ [] ∧ (∀ c ∈ cap, isFnameChar c = true) ∧
      k (some cap) rest = some a) ∨ k none cs = some a := by
  unfold tryOptDirective at h
  cases hm : tryDirective cs (fun cap rest => k (some cap) rest) with
  | some a' =>
    rw [hm] at h
    obtain ⟨cap, rest, hne, hall, hk⟩ := tryDirective_inv hm
    cases h
    exact Or.inl ⟨cap, rest, hne, hall, hk⟩
  | none =>
    rw [hm] at h
    exact Or.inr h

theorem contentTail_inv {lang fname : Option (List Char)} {cs4 : List Char}
    {b : CodeBlock} {rest : List Char}
    (h : tryStar isJsWs cs4 (fun cs5 =>
      tryPlus (fun c => c != backquote) cs5 (fun content cs6 =>
        tryLit fence cs6 (fun rest' =>
          some ({ lang := lang, fnameDirective := fname,
                  content := content }, rest')))) = some (b, rest)) :
    b.lang = lang ∧ b.fnameDirective = fname ∧ b.content ≠ [] ∧
      ∀ c ∈ b.content, c ≠ backquote := by
  obtain ⟨i4, h⟩ := tryStar_inv h
  obtain ⟨i5, hi1, hi2, h⟩ := tryPlus_inv h
  obtain ⟨hne, hall⟩ := plusCap_props hi1 hi2
  obtain ⟨-, h⟩ := tryLit_inv h
  simp only [Option.some.injEq, Prod.mk.injEq] at h
  obtain ⟨hb, -⟩ := h
  subst hb
  refine ⟨rfl, rfl, hne, ?_⟩
  intro c hc
  simpa using hall c hc

theorem matchBlockAt_props {cs : List Char} {b : CodeBlock} {rest : List Char}
    (h : matchBlockAt cs = some (b, rest)) :
    (b.content ≠ [] ∧ ∀ c ∈ b.content, c ≠ backquote) ∧
    ∀ f, b.fnameDirective = some f → f ≠ [] ∧ ∀ c ∈ f, isFnameChar c = true := by
  unfold matchBlockAt at h
  obtain ⟨-, h⟩ := tryLit_inv h
  rcases tryOptLang_inv h with ⟨cap, rest1, h⟩ | h <;>
  · obtain ⟨i2, h⟩ := tryStar_inv h
    rcases tryOptDirective_inv h with ⟨capf, rest2, hcne, hcall, h⟩ | h
    · obtain ⟨-, hf, hne, hbq⟩ := contentTail_inv h
      refine ⟨⟨hne, hbq⟩, ?_⟩
      intro f hf'
      rw [hf] at hf'
      injection hf' with hff
      subst hff
      exact ⟨hcne, hcall⟩
    · obtain ⟨-, hf, hne, hbq⟩ := contentTail_inv h
      refine ⟨⟨hne, hbq⟩, ?_⟩
      intro f hf'
      rw [hf] at hf'
      cases hf'

theorem scanBlocksAux_props :
    ∀ (fuel : Nat) (cs : List Char), ∀ b ∈ scanBlocksAux fuel cs,
      (b.content ≠ [] ∧ ∀ c ∈ b.content, c ≠ backquote) ∧
      ∀ f, b.fnameDirective = some f → f ≠ [] ∧ ∀ c ∈ f, isFnameChar c = true := by
  intro fuel
  induction fuel with
  | zero => intro cs b hb; simp [scanBlocksAux] at hb
  | succ n ih =>
    intro cs b hb
    cases cs with
    | nil => simp [scanBlocksAux] at hb
    | cons c t =>
      rw [scanBlocksAux] at hb
      cases hm : matchBlockAt (c :: t) with
      | none =>
        rw [hm] at hb
        exact ih t b hb
      | some pr =>
        obtain ⟨b', rest⟩ := pr
        rw [hm] at hb
        rcases List.mem_cons.mp hb with hbe | hbm
        · subst hbe; exact matchBlockAt_props hm
        · exact ih rest b hbm

theorem scanBlocks_props {cs : List Char} {b : CodeBlock} (hb : b ∈ scanBlocks cs) :
    (b.content ≠ [] ∧ ∀ c ∈ b.content, c ≠ backquote) ∧
    ∀ f, b.fnameDirective = some f → f ≠ [] ∧ ∀ c ∈ f, isFnameChar c = true :=
  scanBlocksAux_props _ _ b hb

theorem firstLineFilename_props {cs f : List Char}
    (h : firstLineFilename cs = some f) :
    f ≠ [] ∧ ∀ c ∈ f, isFnameChar c = true := by
  have tail_case : ∀ (lit : List Char),
      tryLit lit cs (fun cs1 => tryFilenameTail cs1 (fun cap _ => some cap)) = some f →
      f ≠ [] ∧ ∀ c ∈ f, isFnameChar c = true := by
    intro lit hl
    obtain ⟨-, hk⟩ := tryLit_inv hl
    obtain ⟨cap, rest, hne, hall, hcap⟩ := tryFilenameTail_inv hk
    injection hcap with hcf
    subst hcf
    exact ⟨hne, hall⟩
  unfold firstLineFilename at h
  cases h1 : tryLit (str "//") cs (fun cs1 => tryFilenameTail cs1 (fun cap _ => some cap)) with
  | some f' =>
    rw [h1] at h
    cases h
    exact tail_case _ h1
  | none =>
    rw [h1] at h
    cases h2 : tryLit (str "#") cs (fun cs1 => tryFilenameTail cs1 (fun cap _ => some cap)) with
    | some f' =>
      rw [h2] at h
      cases h
      exact tail_case _ h2
    | none =>
      rw [h2] at h
      exact tail_case _ h

theorem digitChar_isDigit {d : Nat} (h : d < 10) :
    (Char.ofNat (48 + d)).isDigit = true := by
  interval_cases d <;> decide

theorem digitChar_toNat {d : Nat} (h : d < 10) :
    (Char.ofNat (48 + d)).toNat = 48 + d := by
  interval_cases d <;> decide

theorem natDigitsAux_spec : ∀ (fuel n : Nat), n < fuel →
    (natDigitsAux fuel n).all Char.isDigit = true ∧
    natDigitsAux fuel n ≠ [] ∧
    undigits (natDigitsAux fuel n) = n := by
  intro fuel
  induction fuel with
  | zero => intro n hn; omega
  | succ m ih =>
    intro n hn
    rw [natDigitsAux]
    by_cases h10 : n < 10
    · rw [if_pos h10]
      refine ⟨by simp [digitChar_isDigit h10], by simp, ?_⟩
      have := digitChar_toNat h10
      simp [undigits, this]
    · rw [if_neg h10]
      have hdivlt : n / 10 < n := Nat.div_lt_self (by omega) (by omega)
      have hd : n / 10 < m := by omega
      obtain ⟨iha, ihne, ihv⟩ := ih (n / 10) hd
      have hmod : n % 10 < 10 := Nat.mod_lt n (by omega)
      refine ⟨?_, by simp, ?_⟩
      · rw [List.all_append, iha]
        simp [digitChar_isDigit hmod]
      · rw [undigits, List.foldl_append]
        rw [show ((natDigitsAux m (n / 10)).foldl
            (fun a c => 10 * a + (c.toNat - 48)) 0) = undigits (natDigitsAux m (n / 10)) from rfl]
        rw [ihv]
        simp [digitChar_toNat hmod]
        omega

theorem natDigits_all_digit (n : Nat) : (natDigits n).all Char.isDigit = true :=
  (natDigitsAux_spec (n + 1) n (by omega)).1

theorem natDigits_ne_nil (n : Nat) : natDigits n ≠ [] :=
  (natDigitsAux_spec (n + 1) n (by omega)).2.1

theorem natDigits_undigits (n : Nat) : undigits (natDigits n) = n :=
  (natDigitsAux_spec (n + 1) n (by omega)).2.2

theorem natDigits_inj {m n : Nat} (h : natDigits m = natDigits n) : m = n := by
  have := natDigits_undigits m
  rw [h, natDigits_undigits] at this
  omega

theorem takeWhile_append_all {α : Type} {p : α → Bool} :
    ∀ {l e : List α}, l.all p = true → (∀ c, e.head? = some c → p c = false) →
      (l ++ e).takeWhile p = l := by
  intro l
  induction l with
  | nil =>
    intro e _ he
    cases e with
    | nil => simp
    | cons c t =>
      simp only [List.nil_append]
      exact List.takeWhile_cons_of_neg (by simp [he c rfl])
  | cons a t ih =>
    intro e hl he
    simp only [List.all_cons, Bool.and_eq_true] at hl
    simp only [List.cons_append]
    rw [List.takeWhile_cons_of_pos hl.1, ih hl.2 he]

theorem defaultName_inj {i j : Nat} {e1 e2 : List Char}
    (h1 : e1.head? = some '.') (h2 : e2.head? = some '.')
    (h : defaultName i e1 = defaultName j e2) : i = j := by
  unfold defaultName at h
  rw [List.append_assoc, List.append_assoc] at h
  have h' : natDigits i ++ e1 = natDigits j ++ e2 := by
    have := congrArg (List.drop (str "file").length) h
    simpa using this
  have hdot : ∀ (e : List Char), e.head? = some '.' →
      ∀ c, e.head? = some c → Char.isDigit c = false := by
    intro e he c hc
    rw [he] at hc
    injection hc with hc
    subst hc
    decide
  have hi : (natDigits i ++ e1).takeWhile Char.isDigit = natDigits i :=
    takeWhile_append_all (natDigits_all_digit i) (hdot e1 h1)
  have hj : (natDigits j ++ e2).takeWhile Char.isDigit = natDigits j :=
    takeWhile_append_all (natDigits_all_digit j) (hdot e2 h2)
  apply natDigits_inj
  rw [← hi, ← hj, h']

theorem lookupStr_mem : ∀ {l : List (List Char × List Char)} {k v : List Char},
    lookupStr k l = some v → v ∈ l.map Prod.snd := by
  intro l
  induction l with
  | nil => intro k v h; simp [lookupStr] at h
  | cons p t ih =>
    intro k v h
    rw [lookupStr] at h
    split at h
    · injection h with h; simp [h]
    · simpa using Or.inr (ih h)

theorem ext_head (language : List Char) :
    (getExtensionFromLanguage language).head? = some '.' := by
  unfold getExtensionFromLanguage
  cases hl : lookupStr (lowerStr language) langMap with
  | none => decide
  | some v =>
    have hmem := lookupStr_mem hl
    have hall : ∀ w ∈ langMap.map Prod.snd, w.head? = some '.' := by decide
    simpa using hall v hmem

theorem ext_no_backquote (language : List Char) :
    ∀ c ∈ getExtensionFromLanguage language, c ≠ backquote := by
  unfold getExtensionFromLanguage
  cases hl : lookupStr (lowerStr language) langMap with
  | none => decide
  | some v =>
    have hmem := lookupStr_mem hl
    have hall : ∀ w ∈ langMap.map Prod.snd, ∀ c ∈ w, c ≠ backquote := by decide
    simpa using hall v hmem

theorem updateFiles_mem {m : List (List Char × List Char)} {k v : List Char}
    {q : List Char × List Char} (h : q ∈ updateFiles m k v) :
    q = (k, v) ∨ q ∈ m := by
  unfold updateFiles at h
  split at h
  · exact Or.inr h
  · split at h
    · obtain ⟨p, hp, hq⟩ := List.mem_map.mp h
      by_cases hpk : p.1 = k
      · rw [if_pos hpk] at hq
        exact Or.inl hq.symm
      · rw [if_neg hpk] at hq
        exact Or.inr (hq ▸ hp)
    · rcases List.mem_append.mp h with h | h
      · exact Or.inr h
      · exact Or.inl (by simpa using h)

theorem updateFiles_fresh {m : List (List Char × List Char)} {k v : List Char}
    (h : (m.any (fun p => p.1 = k)) = false) (hk : k ≠ str "__proto__") :
    updateFiles m k v = m ++ [(k, v)] := by
  simp [updateFiles, h, hk]

theorem defaultName_ne_proto (i : Nat) (e : List Char) :
    defaultName i e ≠ str "__proto__" := by
  intro h
  have h1 : (defaultName i e).head? = some 'f' := rfl
  rw [h] at h1
  exact absurd h1 (by decide)

theorem mem_dropWhile {α : Type} {p : α → Bool} {c : α} :
    ∀ {l : List α}, c ∈ l.dropWhile p → c ∈ l := by
  intro l
  induction l with
  | nil => intro h; simp [List.dropWhile] at h
  | cons a t ih =>
    intro h
    rw [List.dropWhile] at h
    split at h
    · exact List.mem_cons_of_mem a (ih h)
    · exact h

theorem mem_jsTrim {c : Char} {l : List Char} (h : c ∈ jsTrim l) : c ∈ l := by
  unfold jsTrim at h
  rw [List.mem_reverse] at h
  have h1 := mem_dropWhile h
  rw [List.mem_reverse] at h1
  exact mem_dropWhile h1

theorem goodKeys_mem : ∀ {ks : List (List Char)} {i : Nat}, GoodKeys i ks →
    ∀ k ∈ ks, ∃ l e, i + 1 ≤ l ∧ l ≤ i + ks.length ∧ e.head? = some '.' ∧
      k = defaultName l e := by
  intro ks
  induction ks with
  | nil => intro i _ k hk; simp at hk
  | cons k0 t ih =>
    intro i hg k hk
    obtain ⟨⟨e, he, hk0⟩, ht⟩ := hg
    rcases List.mem_cons.mp hk with rfl | hkt
    · exact ⟨i + 1, e, le_refl _, by simp, he, hk0⟩
    · obtain ⟨l, e', hl1, hl2, he', hk'⟩ := ih ht k hkt
      exact ⟨l, e', by omega, by simp at hl2 ⊢; omega, he', hk'⟩

theorem goodKeys_fresh {i : Nat} {ks : List (List Char)} (hg : GoodKeys i ks)
    {e : List Char} (he : e.head? = some '.') :
    defaultName (i + ks.length + 1) e ∉ ks := by
  intro hmem
  obtain ⟨l, e', hl1, hl2, he', heq⟩ := goodKeys_mem hg _ hmem
  have := defaultName_inj he he' heq
  omega

theorem goodKeys_snoc : ∀ {ks : List (List Char)} {i : Nat}, GoodKeys i ks →
    ∀ {e : List Char}, e.head? = some '.' →
      GoodKeys i (ks ++ [defaultName (i + ks.length + 1) e]) := by
  intro ks
  induction ks with
  | nil =>
    intro i _ e he
    exact ⟨⟨e, he, by simp⟩, trivial⟩
  | cons k0 t ih =>
    intro i hg e he
    obtain ⟨hk0, ht⟩ := hg
    refine ⟨hk0, ?_⟩
    have := ih ht he
    have harith : i + 1 + t.length + 1 = i + (k0 :: t).length + 1 := by
      simp; omega
    rw [harith] at this
    exact this

theorem goodKeys_nodup : ∀ {ks : List (List Char)} {i : Nat}, GoodKeys i ks →
    ks.Nodup := by
  intro ks
  induction ks with
  | nil => intro i _; simp
  | cons k0 t ih =>
    intro i hg
    obtain ⟨⟨e, he, hk0⟩, ht⟩ := hg
    rw [List.nodup_cons]
    refine ⟨?_, ih ht⟩
    intro hmem
    obtain ⟨l, e', hl1, hl2, he', heq⟩ := goodKeys_mem ht k0 hmem
    rw [hk0] at heq
    have := defaultName_inj he he' heq
    omega

theorem processBlock_fallback {m : List (List Char × List Char)} {b : CodeBlock}
    (h1 : b.fnameDirective = none)
    (h2 : firstLineFilename (jsTrim b.content) = none)
    (hg : GoodKeys 0 (m.map Prod.fst)) :
    processBlock m b = m ++
      [(defaultName (m.length + 1) (getExtensionFromLanguage (b.lang.getD (str "txt"))),
        jsTrim b.content)] := by
  have he := ext_head (b.lang.getD (str "txt"))
  have hfresh : (m.any (fun p =>
      p.1 = defaultName (m.length + 1) (getExtensionFromLanguage (b.lang.getD (str "txt"))))) = false := by
    rw [Bool.eq_false_iff]
    intro hany
    obtain ⟨p, hp, hpk⟩ := List.any_eq_true.mp hany
    simp only [decide_eq_true_eq] at hpk
    have hmem : defaultName (m.length + 1) (getExtensionFromLanguage (b.lang.getD (str "txt"))) ∈
        m.map Prod.fst := List.mem_map.mpr ⟨p, hp, hpk⟩
    have hlen : m.length = (m.map Prod.fst).length := by simp
    rw [show m.length + 1 = 0 + (m.map Prod.fst).length + 1 from by simp [← hlen]] at hmem
    exact goodKeys_fresh hg he hmem
  simp only [processBlock, h1, h2]
  exact updateFiles_fresh hfresh (defaultName_ne_proto _ _)

theorem foldl_fallback_good : ∀ (bs : List CodeBlock) (m : List (List Char × List Char)),
    (∀ b ∈ bs, b.fnameDirective = none ∧ firstLineFilename (jsTrim b.content) = none) →
    GoodKeys 0 (m.map Prod.fst) →
    GoodKeys 0 ((bs.foldl processBlock m).map Prod.fst) ∧
    (bs.foldl processBlock m).length = m.length + bs.length := by
  intro bs
  induction bs with
  | nil => intro m _ hg; simpa using hg
  | cons b t ih =>
    intro m hall hg
    have hb := hall b (by simp)
    have hstep := processBlock_fallback hb.1 hb.2 hg
    have hg' : GoodKeys 0 ((processBlock m b).map Prod.fst) := by
      rw [hstep, List.map_append]
      have hlen : m.length = (m.map Prod.fst).length := by simp
      have := goodKeys_snoc hg (ext_head (b.lang.getD (str "txt")))
      simpa [← hlen] using this
    have hlen' : (processBlock m b).length = m.length + 1 := by
      rw [hstep]; simp
    have := ih (processBlock m b) (fun b' hb' => hall b' (by simp [hb'])) hg'
    rw [List.foldl_cons]
    refine ⟨this.1, ?_⟩
    rw [this.2, hlen']
    simp
    omega

theorem fname_char_ne_backquote {c : Char} (h : isFnameChar c = true) :
    c ≠ backquote := by
  intro he
  subst he
  revert h
  decide

theorem digit_char_ne_backquote {c : Char} (h : Char.isDigit c = true) :
    c ≠ backquote := by
  intro he
  subst he
  revert h
  decide

theorem processBlock_noBq {m : List (List Char × List Char)} {b : CodeBlock}
    (hb : (b.content ≠ [] ∧ ∀ c ∈ b.content, c ≠ backquote) ∧
      ∀ f, b.fnameDirective = some f → f ≠ [] ∧ ∀ c ∈ f, isFnameChar c = true)
    (hm : ∀ q ∈ m, (∀ c ∈ q.1, c ≠ backquote) ∧ ∀ c ∈ q.2, c ≠ backquote) :
    ∀ q ∈ processBlock m b, (∀ c ∈ q.1, c ≠ backquote) ∧ ∀ c ∈ q.2, c ≠ backquote := by
  intro q hq
  have hcode : ∀ c ∈ jsTrim b.content, c ≠ backquote :=
    fun c hc => hb.1.2 c (mem_jsTrim hc)
  rcases hd : b.fnameDirective with _ | f
  · rcases hfl : firstLineFilename (jsTrim b.content) with _ | f
    · simp only [processBlock, hd, hfl] at hq
      rcases updateFiles_mem hq with rfl | hqm
      · refine ⟨?_, hcode⟩
        intro c hc
        simp only at hc
        rcases List.mem_append.mp hc with hc' | hc'
        · rcases List.mem_append.mp hc' with hc'' | hc''
          · revert hc''
            have : ∀ c ∈ str "file", c ≠ backquote := by decide
            exact this c
          · exact digit_char_ne_backquote
              (List.all_eq_true.mp (natDigits_all_digit (m.length + 1)) c hc'')
        · exact ext_no_backquote _ c hc'
      · exact hm q hqm
    · simp only [processBlock, hd, hfl] at hq
      rcases updateFiles_mem hq with rfl | hqm
      · refine ⟨?_, hcode⟩
        intro c hc
        exact fname_char_ne_backquote
          ((firstLineFilename_props hfl).2 c hc)
      · exact hm q hqm
  · simp only [processBlock, hd] at hq
    rcases updateFiles_mem hq with rfl | hqm
    · refine ⟨?_, hcode⟩
      intro c hc
      exact fname_char_ne_backquote ((hb.2 f hd).2 c hc)
    · exact hm q hqm

theorem foldl_noBq : ∀ (bs : List CodeBlock),
    (∀ b ∈ bs, (b.content ≠ [] ∧ ∀ c ∈ b.content, c ≠ backquote) ∧
      ∀ f, b.fnameDirective = some f → f ≠ [] ∧ ∀ c ∈ f, isFnameChar c = true) →
    ∀ m : List (List Char × List Char),
      (∀ q ∈ m, (∀ c ∈ q.1, c ≠ backquote) ∧ ∀ c ∈ q.2, c ≠ backquote) →
      ∀ q ∈ bs.foldl processBlock m,
        (∀ c ∈ q.1, c ≠ backquote) ∧ ∀ c ∈ q.2, c ≠ backquote := by
  intro bs
  induction bs with
  | nil => intro _ m hm q hq; exact hm q hq
  | cons b t ih =>
    intro hall m hm q hq
    rw [List.foldl_cons] at hq
    exact ih (fun b' hb' => hall b' (by simp [hb']))
      (processBlock m b) (processBlock_noBq (hall b (by simp)) hm) q hq

/-- C5 counterexample: the directive filename class admits `__proto__`,
and a JavaScript assignment to that key on a plain object is a silent
no-op, so a rawText with two fenced blocks both carrying the explicit
directive `// filename: __proto__` and different contents extracts to an
empty mapping — not to one entry under that filename holding the second
block's content, falsifying the claim as stated. -/
theorem claim_C5_counterexample :
    scanBlocks (str "```js\n// filename: __proto__\nx\n```\n```js\n// filename: __proto__\ny\n```") =
      [⟨some (str "js"), some (str "__proto__"), str "x\n"⟩,
       ⟨some (str "js"), some (str "__proto__"), str "y\n"⟩] ∧
    jsTrim (str "x\n") ≠ jsTrim (str "y\n") ∧
    (extractCodeFromResponse (str "```js\n// filename: __proto__\nx\n```\n```js\n// filename: __proto__\ny\n```")).files =
      [] := by
  decide

/-- C5 (amended): for every rawText whose code-block scan yields exactly
two fenced blocks carrying the same explicit filename directive, where
that filename is not the special key `__proto__` (assignment to which is
a silent no-op on a plain JavaScript object), extraction yields exactly
one entry under that filename whose value is the trimmed content of the
second (later) block; when the trimmed contents differ, the first
block's content does not survive and no merged entry is created. -/
theorem claim_C5 (response : List Char) (b1 b2 : CodeBlock) (name : List Char)
    (hscan : scanBlocks response = [b1, b2])
    (h1 : b1.fnameDirective = some name) (h2 : b2.fnameDirective = some name)
    (hname : name ≠ str "__proto__")
    (hdiff : jsTrim b1.content ≠ jsTrim b2.content) :
    (extractCodeFromResponse response).files = [(name, jsTrim b2.content)] ∧
    (name, jsTrim b1.content) ∉ (extractCodeFromResponse response).files := by
  have hfiles : (extractCodeFromResponse response).files =
      (scanBlocks response).foldl processBlock [] := rfl
  have hfe : (extractCodeFromResponse response).files = [(name, jsTrim b2.content)] := by
    rw [hfiles, hscan]
    simp only [List.foldl_cons, List.foldl_nil]
    simp only [processBlock, h1, h2]
    rw [show updateFiles [] name (jsTrim b1.content) = [(name, jsTrim b1.content)] from
      updateFiles_fresh (by simp) hname]
    simp [updateFiles, hname]
  refine ⟨hfe, ?_⟩
  rw [hfe]
  simp [hdiff]

/-- C5 witness: a concrete rawText with two `a.js`-directive blocks with
different contents extracts to the single entry holding the second
block's trimmed content. -/
theorem claim_C5_witness :
    (extractCodeFromResponse (str "```js\n// filename: a.js\nx\n```\ntext\n```js\n// filename: a.js\ny\n```")).files =
      [(str "a.js", str "y")] := by
  have h := claim_C5
    (str "```js\n// filename: a.js\nx\n```\ntext\n```js\n// filename: a.js\ny\n```")
    ⟨some (str "js"), some (str "a.js"), str "x\n"⟩
    ⟨some (str "js"), some (str "a.js"), str "y\n"⟩
    (str "a.js") (by decide) rfl rfl (by decide) (by decide)
  rw [h.1]
  decide

/-- C6: for every rawText whose N scanned blocks all lack a filename
signal (no fence-adjacent directive and no first-line directive on the
trimmed content), the N synthesized `file<k><ext>` default filenames are
pairwise distinct, one entry per block. -/
theorem claim_C6 (response : List Char) (bs : List CodeBlock)
    (hscan : scanBlocks response = bs)
    (hfb : ∀ b ∈ bs, b.fnameDirective = none ∧
      firstLineFilename (jsTrim b.content) = none) :
    ((extractCodeFromResponse response).files.map Prod.fst).Nodup ∧
    (extractCodeFromResponse response).files.length = bs.length := by
  have hfiles : (extractCodeFromResponse response).files =
      (scanBlocks response).foldl processBlock [] := rfl
  rw [hfiles, hscan]
  obtain ⟨hg, hlen⟩ := foldl_fallback_good bs [] hfb trivial
  exact ⟨goodKeys_nodup hg, by simpa using hlen⟩

/-- C6 witness: two blocks with no filename signal get the distinct
default names `file1.js` and `file2.py`. -/
theorem claim_C6_witness :
    ((extractCodeFromResponse (str "```js\nconsole.log(1)\n```\n```python\nx = 1\n```\nsecond")).files.map Prod.fst).Nodup ∧
    (extractCodeFromResponse (str "```js\nconsole.log(1)\n```\n```python\nx = 1\n```\nsecond")).files.length = 2 := by
  have h := claim_C6
    (str "```js\nconsole.log(1)\n```\n```python\nx = 1\n```\nsecond")
    [⟨some (str "js"), none, str "console.log(1)\n"⟩,
     ⟨some (str "python"), none, str "x = 1\n"⟩]
    (by decide) (by decide)
  exact ⟨h.1, h.2⟩

/-- C7: on the exact input consisting of a `jsx`-tagged fenced block
whose first content line is the directive `// filename: src/App.jsx`
followed by `export default () => null;`, extraction yields exactly the
mapping from `src/App.jsx` to the trimmed code (directive line
consumed), with default `projectInfo.language = "javascript"`. -/
theorem claim_C7 :
    (extractCodeFromResponse (str "```jsx\n// filename: src/App.jsx\nexport default () => null;\n```")).files =
      [(str "src/App.jsx", str "export default () => null;")] ∧
    (extractCodeFromResponse (str "```jsx\n// filename: src/App.jsx\nexport default () => null;\n```")).projectInfo.language =
      str "javascript" := by
  decide

/-- C10: every filename key and every content value produced by the
code-block extractor is free of the backquote character: block content
is captured by a character class excluding backquotes, filenames come
either from backquote-free character classes or from the synthesized
`file<N><ext>` scheme. -/
theorem claim_C10 (response k v : List Char)
    (h : (k, v) ∈ (extractCodeFromResponse response).files) :
    (∀ c ∈ k, c ≠ backquote) ∧ ∀ c ∈ v, c ≠ backquote := by
  have hfiles : (extractCodeFromResponse response).files =
      (scanBlocks response).foldl processBlock [] := rfl
  rw [hfiles] at h
  exact foldl_noBq (scanBlocks response) (fun b hb => scanBlocks_props hb)
    [] (by simp) (k, v) h

/-- C10 witness: the key and value extracted from a concrete response
contain no backquote. -/
theorem claim_C10_witness :
    (∀ c ∈ str "src/App.jsx", c ≠ backquote) ∧
    ∀ c ∈ str "export default () => null;", c ≠ backquote :=
  claim_C10 (str "```jsx\n// filename: src/App.jsx\nexport default () => null;\n```")
    (str "src/App.jsx") (str "export default () => null;") (by decide)

/-- C8: whenever the deployment CLI's combined output carries
`https://ai-project-abc-xyz12.vercel.app` as its first URL-shaped token,
the adapter canonicalizes it to exactly
`https://ai-project-abc.vercel.app/`: the preview-deployment hash suffix
before `.vercel.app` is stripped and a trailing slash is appended. -/
theorem claim_C8 (out : List Char)
    (h : firstHttpsToken out = some (str "https://ai-project-abc-xyz12.vercel.app")) :
    parseDeploymentUrl out = some (str "https://ai-project-abc.vercel.app/") := by
  unfold parseDeploymentUrl
  rw [h]
  decide

/-- C8 witness: on a concrete CLI transcript whose first URL token is
the hashed preview URL, the parsed deployment URL is the canonicalized
production URL. -/
theorem claim_C8_witness :
    parseDeploymentUrl (str "Deploying...\nhttps://ai-project-abc-xyz12.vercel.app\nDone.") =
      some (str "https://ai-project-abc.vercel.app/") :=
  claim_C8 (str "Deploying...\nhttps://ai-project-abc-xyz12.vercel.app\nDone.") (by decide)

theorem vercelDeployCmd_ne_build (token name : List Char) :
    vercelDeployCmd token name ≠ buildCmd := by
  intro h
  have hl := congrArg List.length h
  simp only [vercelDeployCmd, buildCmd, List.length_append] at hl
  have h1 : (str "npx vercel deploy --token=").length = 26 := by decide
  have h2 : (str " --name=").length = 8 := by decide
  have h3 : (str " --confirm --prod").length = 17 := by decide
  have h4 : (str "npm run build").length = 13 := by decide
  rw [h1, h2, h3, h4] at hl
  omega

theorem deployToVercel_no_build (denv : DeployEnv) (token dir name : List Char) :
    ∀ p ∈ (deployToVercel denv token dir name).1, p.1 ≠ buildCmd := by
  intro p hp
  rcases denv with ⟨ni, pli, ve⟩
  unfold deployToVercel at hp
  have hne := vercelDeployCmd_ne_build token name
  have hni : str "npm install" ≠ buildCmd := by decide
  have hpl : str "npm install @vitejs/plugin-react --save-dev" ≠ buildCmd := by decide
  rcases ni with e | o
  · simp at hp
    subst hp
    exact hni
  · rcases pli with e | o'
    · simp at hp
      rcases hp with rfl | rfl
      · exact hni
      · exact hpl
    · rcases ve with e | out
      · simp at hp
        rcases hp with rfl | rfl | rfl
        · exact hni
        · exact hpl
        · exact hne
      · cases hu : parseDeploymentUrl out <;>
        · simp [hu] at hp
          rcases hp with rfl | rfl | rfl
          · exact hni
          · exact hpl
          · exact hne

theorem testBuild_ok (benv : BuildEnv) (dir out : List Char)
    (h : benv.firstBuild = .ok out) :
    testBuildProject benv dir =
      { commands := [(buildCmd, dir)], writes := [], ok := true } := by
  unfold testBuildProject
  rw [h]

theorem testBuild_one_or_two (benv : BuildEnv) (dir : List Char) :
    (testBuildProject benv dir).commands = [(buildCmd, dir)] ∨
    (testBuildProject benv dir).commands = [(buildCmd, dir), (buildCmd, dir)] := by
  unfold testBuildProject
  rcases hfb : benv.firstBuild with msg | o
  · dsimp only
    split
    · split
      · exact Or.inl rfl
      · split
        · exact Or.inl rfl
        · split
          · split
            · exact Or.inr rfl
            · exact Or.inr rfl
          · exact Or.inl rfl
    · exact Or.inl rfl
  · exact Or.inl rfl

theorem testBuild_noncss (benv : BuildEnv) (dir msg : List Char)
    (h : benv.firstBuild = .error msg)
    (hc : (containsSub msg (str "Could not resolve") &&
      containsSub msg (str ".css")) = false) :
    testBuildProject benv dir =
      { commands := [(buildCmd, dir)], writes := [], ok := false } := by
  simp [testBuildProject, h, hc]

theorem testBuild_two_inv (benv : BuildEnv) (dir : List Char)
    (h : (testBuildProject benv dir).commands = [(buildCmd, dir), (buildCmd, dir)]) :
    ∃ msg w, benv.firstBuild = .error msg ∧
      containsSub msg (str "Could not resolve") = true ∧
      containsSub msg (str ".css") = true ∧
      (testBuildProject benv dir).writes = [w] ∧
      ((testBuildProject benv dir).ok = true ↔ ∃ o, benv.secondBuild = .ok o) := by
  rcases hfb : benv.firstBuild with msg | o
  · by_cases hcss : (containsSub msg (str "Could not resolve") &&
        containsSub msg (str ".css")) = true
    · cases hmc : missingCssFromError msg with
      | none =>
        rw [show testBuildProject benv dir =
            { commands := [(buildCmd, dir)], writes := [], ok := false } from by
          simp [testBuildProject, hfb, hcss, hmc]] at h
        simp at h
      | some mf =>
        cases hcf : componentFromError msg with
        | none =>
          rw [show testBuildProject benv dir =
              { commands := [(buildCmd, dir)], writes := [], ok := false } from by
            simp [testBuildProject, hfb, hcss, hmc, hcf]] at h
          simp at h
        | some cp =>
          by_cases hex : benv.fileExists (resolveComponentPath benv.fileExists
              (pathJoin (pathJoin dir (str "src")) cp)) = true
          · rcases hsb : benv.secondBuild with e | o2
            · have ht : testBuildProject benv dir =
                  { commands := [(buildCmd, dir), (buildCmd, dir)],
                    writes := [repairWrite (resolveComponentPath benv.fileExists
                      (pathJoin (pathJoin dir (str "src")) cp)) mf],
                    ok := false } := by
                simp [testBuildProject, hfb, hcss, hmc, hcf, hex, hsb]
              rw [Bool.and_eq_true] at hcss
              refine ⟨msg, _, rfl, hcss.1, hcss.2, by rw [ht], ?_⟩
              rw [ht]
              simp [hsb]
            · have ht : testBuildProject benv dir =
                  { commands := [(buildCmd, dir), (buildCmd, dir)],
                    writes := [repairWrite (resolveComponentPath benv.fileExists
                      (pathJoin (pathJoin dir (str "src")) cp)) mf],
                    ok := true } := by
                simp [testBuildProject, hfb, hcss, hmc, hcf, hex, hsb]
              rw [Bool.and_eq_true] at hcss
              refine ⟨msg, _, rfl, hcss.1, hcss.2, by rw [ht], ?_⟩
              rw [ht]
              simp [hsb]
          · rw [show testBuildProject benv dir =
                { commands := [(buildCmd, dir)], writes := [], ok := false } from by
              simp [testBuildProject, hfb, hcss, hmc, hcf, hex]] at h
            simp at h
    · rw [testBuild_noncss benv dir msg hfb (by simpa using hcss)] at h
      simp at h
  · rw [testBuild_ok benv dir o hfb] at h
    simp at h

/-- C4 counterexample: on a concrete deploy-path run in which the
dependency installs and the deployment CLI all succeed, the executed
commands are exactly the two installs and the deployment invocation —
the claimed pre-deployment `npm run build` is never run on the deploy
path. -/
theorem claim_C4_counterexample :
    (deployToVercel ⟨.ok (str ""), .ok (str ""),
        .ok (str "https://ai-project-k7.vercel.app")⟩
      (str "tok") (str "generated_projects/k7") (str "ai-project-k7")).1.map Prod.fst =
      [str "npm install", str "npm install @vitejs/plugin-react --save-dev",
       vercelDeployCmd (str "tok") (str "ai-project-k7")] ∧
    ¬ buildCmd ∈ (deployToVercel ⟨.ok (str ""), .ok (str ""),
        .ok (str "https://ai-project-k7.vercel.app")⟩
      (str "tok") (str "generated_projects/k7") (str "ai-project-k7")).1.map Prod.fst := by
  decide

/-- C4 (amended): the build-validate-repair behaviour is implemented in
`testBuildProject` exactly as described — one build; on a failure whose
error text reports an unresolved `.css` import, the missing stylesheet
and importing component are parsed out of the message, a single
placeholder stylesheet is written beside the located component and the
build is retried exactly once more, its outcome surfaced as-is; any
other failure is surfaced immediately — but the deploy path never
invokes it: no command run by `deployToVercel` is the project's build
command. -/
theorem claim_C4_amended :
    (∀ (denv : DeployEnv) (token dir name : List Char),
      ∀ p ∈ (deployToVercel denv token dir name).1, p.1 ≠ buildCmd) ∧
    (∀ (benv : BuildEnv) (dir out : List Char), benv.firstBuild = .ok out →
      testBuildProject benv dir =
        { commands := [(buildCmd, dir)], writes := [], ok := true }) ∧
    (∀ (benv : BuildEnv) (dir : List Char),
      (testBuildProject benv dir).commands = [(buildCmd, dir)] ∨
      (testBuildProject benv dir).commands = [(buildCmd, dir), (buildCmd, dir)]) ∧
    (∀ (benv : BuildEnv) (dir : List Char),
      (testBuildProject benv dir).commands = [(buildCmd, dir), (buildCmd, dir)] →
      ∃ msg w, benv.firstBuild = .error msg ∧
        containsSub msg (str "Could not resolve") = true ∧
        containsSub msg (str ".css") = true ∧
        (testBuildProject benv dir).writes = [w] ∧
        ((testBuildProject benv dir).ok = true ↔ ∃ o, benv.secondBuild = .ok o)) ∧
    (∀ (benv : BuildEnv) (dir msg : List Char), benv.firstBuild = .error msg →
      (containsSub msg (str "Could not resolve") &&
        containsSub msg (str ".css")) = false →
      testBuildProject benv dir =
        { commands := [(buildCmd, dir)], writes := [], ok := false }) :=
  ⟨deployToVercel_no_build, testBuild_ok, testBuild_one_or_two,
   testBuild_two_inv, testBuild_noncss⟩

/-- C4 witness: a successful first build runs the build once and
reports success; a failure without the CSS-import signature runs the
build once and reports failure. -/
theorem claim_C4_amended_witness :
    testBuildProject ⟨.ok (str "built"), fun _ => false, .ok (str "")⟩ (str "d") =
      { commands := [(buildCmd, str "d")], writes := [], ok := true } ∧
    testBuildProject ⟨.error (str "SyntaxError: boom"), fun _ => false, .ok (str "")⟩ (str "d") =
      { commands := [(buildCmd, str "d")], writes := [], ok := false } :=
  ⟨claim_C4_amended.2.1 _ (str "d") (str "built") rfl,
   claim_C4_amended.2.2.2.2 _ (str "d") (str "SyntaxError: boom") rfl (by decide)⟩

/-- C2: a job whose generation step yields an empty file mapping fails
before `scaffolding` is ever set: every observable state of its trace is
`pending`, `generating` or `failed` (never `scaffolding`, `deploying` or
a success state), and the final state is `failed` with `completed` true
and the `NoFilesExtracted`-class message
`No code files found in API response`. -/
theorem claim_C2 (env : PipelineEnv) (uniqueId prompt apiProvider : List Char)
    (now : Nat) (files : List (List Char × List Char)) (pinfo : ProjectInfo)
    (hg : env.genOutcome = .ok (files, pinfo)) (hemp : files = []) :
    (∀ j ∈ runJob env (mkJob uniqueId prompt apiProvider now),
      j.status = .pending ∨ j.status = .generating ∨ j.status = .failed) ∧
    ∃ jf, (runJob env (mkJob uniqueId prompt apiProvider now)).getLast? = some jf ∧
      jf.status = .failed ∧ jf.completed = true ∧
      jf.error = some (str "No code files found in API response") := by
  subst hemp
  unfold runJob
  simp only [hg, List.length_nil, if_pos]
  constructor
  · intro j hj
    simp only [List.mem_cons, List.not_mem_nil, or_false] at hj
    rcases hj with rfl | rfl | rfl
    · exact Or.inl rfl
    · exact Or.inr (Or.inl rfl)
    · exact Or.inr (Or.inr rfl)
  · exact ⟨_, rfl, rfl, rfl, rfl⟩

/-- C2 witness: a concrete environment whose generation yields an empty
mapping produces a trace that never shows `scaffolding` and ends
`failed`/completed with the `NoFilesExtracted` message. -/
theorem claim_C2_witness :
    (∀ j ∈ runJob
        ⟨.ok ([], ⟨str "react", str "javascript", none, []⟩), .ok (), .ok (), .ok (),
         [], fun _ => none, none, ⟨.ok [], .ok [], .ok []⟩⟩
        (mkJob (str "j1") (str "p") (str "gemini") 0),
      j.status = .pending ∨ j.status = .generating ∨ j.status = .failed) ∧
    ∃ jf, (runJob
        ⟨.ok ([], ⟨str "react", str "javascript", none, []⟩), .ok (), .ok (), .ok (),
         [], fun _ => none, none, ⟨.ok [], .ok [], .ok []⟩⟩
        (mkJob (str "j1") (str "p") (str "gemini") 0)).getLast? = some jf ∧
      jf.status = .failed ∧ jf.completed = true ∧
      jf.error = some (str "No code files found in API response") :=
  claim_C2 _ (str "j1") (str "p") (str "gemini") 0 []
    ⟨str "react", str "javascript", none, []⟩ rfl rfl

/-- C3: a job processed with no deployment credential whose generation,
scaffolding and file-listing steps succeed resolves to the terminal
status `completed_without_deployment` with `completed` true, keeps its
non-empty `outputDir` and a non-empty `files` listing, gets no
`deploymentUrl`, and carries the descriptive non-crash message in
`error` — it does not become `failed`. -/
theorem claim_C3 (env : PipelineEnv) (uniqueId prompt apiProvider : List Char)
    (now : Nat) (files : List (List Char × List Char)) (pinfo : ProjectInfo)
    (hg : env.genOutcome = .ok (files, pinfo)) (hne : files ≠ [])
    (hs : env.scaffoldOutcome = .ok ()) (ha : env.addFilesOutcome = .ok ())
    (hl : env.listOutcome = .ok ()) (hv : env.vercelToken = none) :
    ∃ jf, (runJob env (mkJob uniqueId prompt apiProvider now)).getLast? = some jf ∧
      jf.status = .completedWithoutDeployment ∧ jf.completed = true ∧
      jf.outputDir = str "generated_projects/" ++ uniqueId ∧ jf.outputDir ≠ [] ∧
      (∃ pf, jf.files = some pf ∧ pf ≠ []) ∧
      jf.deploymentUrl = none ∧
      jf.error = some (str "Vercel token not configured. Project generated but not deployed.") ∧
      jf.status ≠ .failed := by
  have hflen : ¬ (files.length = 0) := by
    simpa [List.length_eq_zero] using hne
  have hov : overlayFiles env.scaffoldFiles (files.map Prod.fst) ≠ [] := by
    unfold overlayFiles
    cases hsf : env.scaffoldFiles with
    | nil =>
      simp only [List.nil_append]
      rw [List.filter_eq_self.mpr (by intro a _; simp [List.contains])]
      simpa using hne
    | cons s t => simp
  unfold runJob
  simp only [hg, hs, ha, hl, hv, if_neg hflen]
  refine ⟨_, rfl, rfl, rfl, rfl, ?_, ⟨_, rfl, hov⟩, ?_, rfl, by simp⟩
  · show str "generated_projects/" ++ uniqueId ≠ []
    intro h
    have hlen := congrArg List.length h
    rw [List.length_append] at hlen
    have h19 : (str "generated_projects/").length = 19 := by decide
    have h0 : ([] : List Char).length = 0 := rfl
    omega
  · simp [mkJob]

/-- C3 witness: a concrete no-token run with one generated file ends
`completed_without_deployment`, completed, with non-empty files and the
descriptive message. -/
theorem claim_C3_witness :
    ∃ jf, (runJob
        ⟨.ok ([(str "src/App.jsx", str "x")], ⟨str "react", str "javascript", none, []⟩),
         .ok (), .ok (), .ok (), [str "package.json"], fun _ => none, none,
         ⟨.ok [], .ok [], .ok []⟩⟩
        (mkJob (str "j2") (str "p") (str "claude") 0)).getLast? = some jf ∧
      jf.status = .completedWithoutDeployment ∧ jf.completed = true ∧
      jf.outputDir = str "generated_projects/" ++ str "j2" ∧ jf.outputDir ≠ [] ∧
      (∃ pf, jf.files = some pf ∧ pf ≠ []) ∧
      jf.deploymentUrl = none ∧
      jf.error = some (str "Vercel token not configured. Project generated but not deployed.") ∧
      jf.status ≠ .failed :=
  claim_C3 _ (str "j2") (str "p") (str "claude") 0
    [(str "src/App.jsx", str "x")] ⟨str "react", str "javascript", none, []⟩
    rfl (by simp) rfl rfl rfl rfl

/-- C9: a status query on a known job returns exactly the base fields
`success, jobId, status, created, lastUpdated` while `completed` is
false; once `completed` is true it additionally returns `outputDir` and,
when set on the job (every pipeline-assigned value is a nonempty
string), `error`, `files` and `deploymentUrl`; and `fileContents` is
present if and only if `includeFiles=true` was passed AND the job is
`completed`-flagged AND contents were captured. -/
theorem claim_C9 (job : Job) (includeFiles : Bool)
    (herr : job.error ≠ some []) (hurl : job.deploymentUrl ≠ some []) :
    ((getDeploymentStatus job includeFiles).success = true ∧
     (getDeploymentStatus job includeFiles).jobId = job.id ∧
     (getDeploymentStatus job includeFiles).status = job.status ∧
     (getDeploymentStatus job includeFiles).created = job.created ∧
     (getDeploymentStatus job includeFiles).lastUpdated = job.lastUpdated) ∧
    (job.completed = false →
      (getDeploymentStatus job includeFiles).outputDir = none ∧
      (getDeploymentStatus job includeFiles).error = none ∧
      (getDeploymentStatus job includeFiles).files = none ∧
      (getDeploymentStatus job includeFiles).deploymentUrl = none ∧
      (getDeploymentStatus job includeFiles).fileContents = none) ∧
    (job.completed = true →
      (getDeploymentStatus job includeFiles).outputDir = some job.outputDir ∧
      (getDeploymentStatus job includeFiles).error = job.error ∧
      (getDeploymentStatus job includeFiles).files = job.files ∧
      (getDeploymentStatus job includeFiles).deploymentUrl = job.deploymentUrl) ∧
    ((getDeploymentStatus job includeFiles).fileContents ≠ none ↔
      includeFiles = true ∧ job.completed = true ∧ job.fileContents ≠ none) := by
  have htr : ∀ o : Option (List Char), o ≠ some [] → optTruthyStr o = o := by
    intro o ho
    cases o with
    | none => rfl
    | some s =>
      show (if s = [] then none else some s) = some s
      rw [if_neg]
      intro hs
      exact ho (by rw [hs])
  unfold getDeploymentStatus
  cases hc : job.completed
  · rw [if_neg (by simp)]
    refine ⟨⟨rfl, rfl, rfl, rfl, rfl⟩, fun _ => ⟨rfl, rfl, rfl, rfl, rfl⟩, ?_, ?_⟩
    · intro h
      exact absurd h (by simp)
    · simp
  · rw [if_pos rfl]
    refine ⟨⟨rfl, rfl, rfl, rfl, rfl⟩, ?_,
      fun _ => ⟨rfl, htr _ herr, rfl, htr _ hurl⟩, ?_⟩
    · intro h
      exact absurd h (by simp)
    · cases includeFiles <;> simp

/-- C9 witness: a completed job queried with `includeFiles=true` exposes
its captured `fileContents` and its error string. -/
theorem claim_C9_witness :
    (getDeploymentStatus ⟨str "j", str "p", str "o", .completedWithoutDeployment,
        0, 1, true, str "gemini", some (str "e"), some [str "f"],
        some [(str "f", str "x")], none, none⟩ true).fileContents ≠ none ∧
    (getDeploymentStatus ⟨str "j", str "p", str "o", .completedWithoutDeployment,
        0, 1, true, str "gemini", some (str "e"), some [str "f"],
        some [(str "f", str "x")], none, none⟩ true).error = some (str "e") := by
  have h := claim_C9 ⟨str "j", str "p", str "o", .completedWithoutDeployment,
        0, 1, true, str "gemini", some (str "e"), some [str "f"],
        some [(str "f", str "x")], none, none⟩ true
    (by simp; decide) (by simp)
  exact ⟨(h.2.2.2).mpr ⟨rfl, rfl, by simp⟩, (h.2.2.1 rfl).2.1⟩

theorem statusReach_edge {s t : Status} (h : statusEdge s t = true) :
    statusReach s t :=
  Relation.ReflTransGen.single h

theorem statusReach_two (m : Status) {s t : Status} (h1 : statusEdge s m = true)
    (h2 : statusEdge m t = true) : statusReach s t :=
  Relation.ReflTransGen.head h1 (Relation.ReflTransGen.single h2)

/-- C1: along every observable trace of the background task, the status
only advances along the state-machine graph (each consecutive pair of
states is joined by a path of `statusEdge`s, so it never regresses —
`statusRank` is non-decreasing), and the `completed` flag is true in an
observable state exactly when the status is one of the four terminal
states, on the success path and on the catch path alike. -/
theorem claim_C1 (env : PipelineEnv) (uniqueId prompt apiProvider : List Char)
    (now : Nat) :
    List.Chain' (fun a b => statusReach a.status b.status ∧
      statusRank a.status ≤ statusRank b.status)
      (runJob env (mkJob uniqueId prompt apiProvider now)) ∧
    ∀ j ∈ runJob env (mkJob uniqueId prompt apiProvider now),
      (j.completed = true ↔ isTerminal j.status = true) := by
  unfold runJob
  rcases hg : env.genOutcome with msg | ⟨files, pinfo⟩
  · dsimp only [mkJob, failJob]
    constructor
    · simp only [List.chain'_cons, List.chain'_singleton, and_true]
      exact ⟨⟨statusReach_edge (by decide), by decide⟩,
             ⟨statusReach_edge (by decide), by decide⟩⟩
    · intro j hj
      simp only [List.mem_cons, List.not_mem_nil, or_false] at hj
      rcases hj with rfl | rfl | rfl <;> exact Iff.rfl
  · dsimp only
    by_cases hf : files.length = 0
    · rw [if_pos hf]
      dsimp only [mkJob, failJob]
      constructor
      · simp only [List.chain'_cons, List.chain'_singleton, and_true]
        exact ⟨⟨statusReach_edge (by decide), by decide⟩,
               ⟨statusReach_edge (by decide), by decide⟩⟩
      · intro j hj
        simp only [List.mem_cons, List.not_mem_nil, or_false] at hj
        rcases hj with rfl | rfl | rfl <;> exact Iff.rfl
    · rw [if_neg hf]
      rcases hs : env.scaffoldOutcome with msg | u
      · dsimp only [mkJob, failJob]
        constructor
        · simp only [List.chain'_cons, List.chain'_singleton, and_true]
          exact ⟨⟨statusReach_edge (by decide), by decide⟩,
                 ⟨statusReach_edge (by decide), by decide⟩,
                 ⟨statusReach_edge (by decide), by decide⟩⟩
        · intro j hj
          simp only [List.mem_cons, List.not_mem_nil, or_false] at hj
          rcases hj with rfl | rfl | rfl | rfl <;> exact Iff.rfl
      · rcases ha : env.addFilesOutcome with msg | u2
        · dsimp only [mkJob, failJob]
          constructor
          · simp only [List.chain'_cons, List.chain'_singleton, and_true]
            exact ⟨⟨statusReach_edge (by decide), by decide⟩,
                   ⟨statusReach_edge (by decide), by decide⟩,
                   ⟨statusReach_edge (by decide), by decide⟩⟩
          · intro j hj
            simp only [List.mem_cons, List.not_mem_nil, or_false] at hj
            rcases hj with rfl | rfl | rfl | rfl <;> exact Iff.rfl
        · rcases hl : env.listOutcome with msg | u3
          · dsimp only [mkJob, failJob]
            constructor
            · simp only [List.chain'_cons, List.chain'_singleton, and_true]
              exact ⟨⟨statusReach_edge (by decide), by decide⟩,
                     ⟨statusReach_edge (by decide), by decide⟩,
                     ⟨statusReach_edge (by decide), by decide⟩⟩
            · intro j hj
              simp only [List.mem_cons, List.not_mem_nil, or_false] at hj
              rcases hj with rfl | rfl | rfl | rfl <;> exact Iff.rfl
          · rcases hv : env.vercelToken with _ | token
            · dsimp only [mkJob, failJob]
              constructor
              · simp only [List.chain'_cons, List.chain'_singleton, and_true]
                exact ⟨⟨statusReach_edge (by decide), by decide⟩,
                       ⟨statusReach_edge (by decide), by decide⟩,
                       ⟨statusReach_two .deploying (by decide) (by decide), by decide⟩⟩
              · intro j hj
                simp only [List.mem_cons, List.not_mem_nil, or_false] at hj
                rcases hj with rfl | rfl | rfl | rfl <;> exact Iff.rfl
            · dsimp only [mkJob, failJob]
              rcases hdr : (deployToVercel env.deployEnv token
                  (str "generated_projects/" ++ uniqueId)
                  (str "ai-project-" ++ uniqueId)).2 with ⟨url, out⟩ | dmsg
              · constructor
                · simp only [List.chain'_cons, List.chain'_singleton, and_true]
                  exact ⟨⟨statusReach_edge (by decide), by decide⟩,
                         ⟨statusReach_edge (by decide), by decide⟩,
                         ⟨statusReach_edge (by decide), by decide⟩,
                         ⟨statusReach_edge (by decide), by decide⟩⟩
                · intro j hj
                  simp only [List.mem_cons, List.not_mem_nil, or_false] at hj
                  rcases hj with rfl | rfl | rfl | rfl | rfl <;> exact Iff.rfl
              · constructor
                · simp only [List.chain'_cons, List.chain'_singleton, and_true]
                  exact ⟨⟨statusReach_edge (by decide), by decide⟩,
                         ⟨statusReach_edge (by decide), by decide⟩,
                         ⟨statusReach_edge (by decide), by decide⟩,
                         ⟨statusReach_edge (by decide), by decide⟩⟩
                · intro j hj
                  simp only [List.mem_cons, List.not_mem_nil, or_false] at hj
                  rcases hj with rfl | rfl | rfl | rfl | rfl <;> exact Iff.rfl
